import Mathlib

/-!
Verification of the two-phase pressure-drop correlation module
(fluids/two_phase.py): a shallow embedding over the reals of the eleven
correlations and of the shared single-phase pressure-drop primitive they
build on.  The external collaborators (the Darcy friction-factor solver,
the dimensionless-group provider and the void-fraction provider) are not
part of the module; the friction-factor solver is kept abstract as a
function parameter and the group providers are modelled from their
documented contracts.
-/

open Real Classical

namespace TwoPhase

/-- Modelled from the spec: the standard gravitational acceleration used by
the external dimensionless-group provider (Froude and Bond numbers). -/
noncomputable def grav : ℝ := 9.80665

/-- Modelled from the spec: the external contract
Reynolds(V, rho, mu, D) -> Re, the Reynolds number rho*V*D/mu. -/
noncomputable def Reynolds (V rho mu D : ℝ) : ℝ := rho * V * D / mu

/-- Modelled from the spec: the external contract Froude(V, L, squared) with
squared=True, the only form the module uses: Fr = V^2/(g*L).  The source
cross-checks this against G_tp^2/(g*D*rho^2). -/
noncomputable def Froude (V L : ℝ) : ℝ := V ^ 2 / (grav * L)

/-- Modelled from the spec: the external contract Weber(V, L, rho, sigma),
We = V^2*L*rho/sigma.  The source cross-checks this against
G_tp^2*D/(sigma*rho). -/
noncomputable def Weber (V L rho sigma : ℝ) : ℝ := V ^ 2 * L * rho / sigma

/-- Modelled from the spec: the external contract Bond(rhol, rhog, sigma, L),
Bo = g*(rhol - rhog)*L^2/sigma; the source divides this by 4 to obtain its
custom quartered definition g*(rhol - rhog)*D^2/(4*sigma). -/
noncomputable def Bond (rhol rhog sigma L : ℝ) : ℝ :=
  grav * (rhol - rhog) * L ^ 2 / sigma

/-- Modelled from the spec: the external contract
Confinement(D, rhol, rhog, sigma), Co = sqrt(sigma/(g*(rhol - rhog)))/D. -/
noncomputable def Confinement (D rhol rhog sigma : ℝ) : ℝ :=
  Real.sqrt (sigma / (grav * (rhol - rhog))) / D

/-- Modelled from the spec: the external contract homogeneous(x, rhol, rhog),
the homogeneous void fraction, i.e. the gas volume fraction
(x/rhog)/(x/rhog + (1-x)/rhol) of the flow-weighted mixture, so that the
mixture density rhol*(1-voidage) + rhog*voidage equals the flow-weighted
average density. -/
noncomputable def homogeneous (x rhol rhog : ℝ) : ℝ :=
  (x / rhog) / (x / rhog + (1 - x) / rhol)

/-- Modelled from the spec: the external contract
Lockhart_Martinelli_Xtt(x, rhol, rhog, mul, mug), the turbulent-turbulent
Lockhart-Martinelli parameter ((1-x)/x)^0.9*(rhog/rhol)^0.5*(mul/mug)^0.1. -/
noncomputable def Lockhart_Martinelli_Xtt (x rhol rhog mul mug : ℝ) : ℝ :=
  ((1 - x) / x) ^ (0.9 : ℝ) * (rhog / rhol) ^ (0.5 : ℝ) * (mul / mug) ^ (0.1 : ℝ)

/-- Shared single-phase primitive, step 1: the superficial velocity of one
phase flowing alone, flow rate over density and cross-sectional area
pi/4*D^2 (the source writes this inline as mflow/rho/(pi/4*D**2)). -/
noncomputable def v_single (mflow rho D : ℝ) : ℝ :=
  mflow / rho / (Real.pi / 4 * D ^ 2)

/-- Shared single-phase primitive, step 2: the Reynolds number of one phase
flowing alone. -/
noncomputable def Re_single (mflow rho mu D : ℝ) : ℝ :=
  Reynolds (v_single mflow rho D) rho mu D

/-- Shared single-phase primitive, step 3: the Darcy friction factor of one
phase flowing alone, from the external provider fd at relative roughness
roughness/D. -/
noncomputable def fd_single (fd : ℝ → ℝ → ℝ) (mflow rho mu D roughness : ℝ) : ℝ :=
  fd (Re_single mflow rho mu D) (roughness / D)

/-- Shared single-phase primitive, step 4: the equivalent single-phase
frictional pressure drop fd*(L/D)*(0.5*rho*V^2) of one phase flowing
alone. -/
noncomputable def dP_single (fd : ℝ → ℝ → ℝ) (mflow rho mu D roughness L : ℝ) : ℝ :=
  fd_single fd mflow rho mu D roughness * L / D * (0.5 * rho * v_single mflow rho D ^ 2)

/-- The base 1 - mug/mul of the fractional power (1 - mug/mul)^0.7 appearing
in the H factor of Friedel and Chen_Friedel. -/
noncomputable def friedelHBase (mul mug : ℝ) : ℝ := 1 - mug / mul

/-- The Friedel correlation. -/
noncomputable def Friedel (fd : ℝ → ℝ → ℝ)
    (m x rhol rhog mul mug sigma D roughness L : ℝ) : ℝ :=
  let fd_lo := fd_single fd m rhol mul D roughness
  let dP_lo := dP_single fd m rhol mul D roughness L
  let fd_go := fd_single fd m rhog mug D roughness
  let F := x ^ (0.78 : ℝ) * (1 - x) ^ (0.224 : ℝ)
  let H := (rhol / rhog) ^ (0.91 : ℝ) * (mug / mul) ^ (0.19 : ℝ) *
    friedelHBase mul mug ^ (0.7 : ℝ)
  let E := (1 - x) ^ 2 + x ^ 2 * (rhol * fd_go / (rhog * fd_lo))
  let voidage_h := homogeneous x rhol rhog
  let rho_h := rhol * (1 - voidage_h) + rhog * voidage_h
  let v_h := m / rho_h / (Real.pi / 4 * D ^ 2)
  let Fr := Froude v_h D
  let We := Weber v_h D rho_h sigma
  let phi_lo2 := E + 3.24 * F * H / (Fr ^ (0.0454 : ℝ) * We ^ (0.035 : ℝ))
  phi_lo2 * dP_lo

/-- The Gronnerud correlation. -/
noncomputable def Gronnerud (fd : ℝ → ℝ → ℝ)
    (m x rhol rhog mul mug D roughness L : ℝ) : ℝ :=
  let G := m / (Real.pi / 4 * D ^ 2)
  let V := G / rhol
  let Frl := Froude V D
  let f_Fr := if 1 ≤ Frl then 1 else Frl ^ (0.3 : ℝ) + 0.0055 * Real.log (1 / Frl) ^ 2
  let dP_dL_Fr := f_Fr * (x + 4 * (x ^ (1.8 : ℝ) - x ^ 10 * f_Fr ^ (0.5 : ℝ)))
  let phi_gd := 1 + dP_dL_Fr * ((rhol / rhog) / (mul / mug) ^ (0.25 : ℝ) - 1)
  phi_gd * dP_single fd m rhol mul D roughness L

/-- The piecewise Chisholm coefficient B, selected by the Gamma band and the
mass flux G_tp. -/
noncomputable def ChisholmB (Gamma G_tp : ℝ) : ℝ :=
  if Gamma ≤ 9.5 then
    if G_tp ≤ 500 then 4.8
    else if G_tp < 1900 then 2400 / G_tp
    else 55 * G_tp ^ (-0.5 : ℝ)
  else if Gamma ≤ 28 then
    if G_tp ≤ 600 then 520 * G_tp ^ (-0.5 : ℝ) / Gamma
    else 21 / Gamma
  else 15000 * G_tp ^ (-0.5 : ℝ) / Gamma ^ 2

/-- The Chisholm (1973) correlation, with the optional 1968 roughness
correction applied to B and to the Blasius exponent n. -/
noncomputable def Chisholm (fd : ℝ → ℝ → ℝ)
    (m x rhol rhog mul mug D roughness L : ℝ) (rough_correction : Bool) : ℝ :=
  let G_tp := m / (Real.pi / 4 * D ^ 2)
  let Re_lo := Re_single m rhol mul D
  let fd_lo := fd_single fd m rhol mul D roughness
  let dP_lo := dP_single fd m rhol mul D roughness L
  let Re_go := Re_single m rhog mug D
  let fd_go := fd_single fd m rhog mug D roughness
  let dP_go := dP_single fd m rhog mug D roughness L
  let Gamma := (dP_go / dP_lo) ^ (0.5 : ℝ)
  let n := if rough_correction then Real.log (fd_lo / fd_go) / Real.log (Re_go / Re_lo)
    else 0.25
  let B := if rough_correction then
      ChisholmB Gamma G_tp *
        (0.5 * (1 + (mug / mul) ^ 2 + (10 : ℝ) ^ (-600 * roughness / D))) ^
          ((0.25 - n) / 0.25)
    else ChisholmB Gamma G_tp
  let phi2_ch := 1 + (Gamma ^ 2 - 1) *
    (B * x ^ ((2 - n) / 2) * (1 - x) ^ ((2 - n) / 2) + x ^ (2 - n))
  phi2_ch * dP_lo

/-- The Baroczy (1966) model as made non-graphical by Chisholm (1973): the
Chisholm multiplier with a simplified three-band B table. -/
noncomputable def Baroczy_Chisholm (fd : ℝ → ℝ → ℝ)
    (m x rhol rhog mul mug D roughness L : ℝ) : ℝ :=
  let G_tp := m / (Real.pi / 4 * D ^ 2)
  let n : ℝ := 0.25
  let dP_lo := dP_single fd m rhol mul D roughness L
  let dP_go := dP_single fd m rhog mug D roughness L
  let Gamma := (dP_go / dP_lo) ^ (0.5 : ℝ)
  let B := if Gamma ≤ 9.5 then 55 * G_tp ^ (-0.5 : ℝ)
    else if Gamma ≤ 28 then 520 * G_tp ^ (-0.5 : ℝ) / Gamma
    else 15000 * G_tp ^ (-0.5 : ℝ) / Gamma ^ 2
  let phi2_ch := 1 + (Gamma ^ 2 - 1) *
    (B * x ^ ((2 - n) / 2) * (1 - x) ^ ((2 - n) / 2) + x ^ (2 - n))
  phi2_ch * dP_lo

/-- The Muller-Steinhagen and Heck (1986) correlation. -/
noncomputable def Muller_Steinhagen_Heck (fd : ℝ → ℝ → ℝ)
    (m x rhol rhog mul mug D roughness L : ℝ) : ℝ :=
  let dP_lo := dP_single fd m rhol mul D roughness L
  let dP_go := dP_single fd m rhog mug D roughness L
  let G_MSH := dP_lo + 2 * (dP_go - dP_lo) * x
  G_MSH * (1 - x) ^ ((1 : ℝ) / 3) + dP_go * x ^ 3

/-- The Lombardi-Pedrocchi (1972) correlation, a direct empirical power law
with no single-phase drops. -/
noncomputable def Lombardi_Pedrocchi (m x rhol rhog sigma D L : ℝ) : ℝ :=
  let voidage_h := homogeneous x rhol rhog
  let rho_h := rhol * (1 - voidage_h) + rhog * voidage_h
  let G_tp := m / (Real.pi / 4 * D ^ 2)
  0.83 * G_tp ^ (1.4 : ℝ) * sigma ^ (0.4 : ℝ) * L / (D ^ (1.2 : ℝ) * rho_h ^ (0.866 : ℝ))

/-- The blending exponent n of the Theissing correlation, from the actual
and only-phase pressure drops and the quality. -/
noncomputable def Theissing_n (dPl dPlo dPg dPgo x : ℝ) : ℝ :=
  let n1 := Real.log (dPl / dPlo) / Real.log (1 - x)
  let n2 := Real.log (dPg / dPgo) / Real.log x
  (n1 + n2 * (dPg / dPl) ^ (0.1 : ℝ)) / (1 + (dPg / dPl) ^ (0.1 : ℝ))

/-- The epsilon exponent of the Theissing correlation. -/
noncomputable def Theissing_eps (rhol rhog n : ℝ) : ℝ :=
  3 - 2 * (2 * (rhol / rhog) ^ (0.5 : ℝ) / (1 + rhol / rhog)) ^ (0.7 / n)

/-- The Theissing (1980) correlation, with its explicit special cases
returning the liquid-only drop at x = 0 and the gas-only drop at x = 1. -/
noncomputable def Theissing (fd : ℝ → ℝ → ℝ)
    (m x rhol rhog mul mug D roughness L : ℝ) : ℝ :=
  let dP_lo := dP_single fd m rhol mul D roughness L
  let dP_go := dP_single fd m rhog mug D roughness L
  if x = 0 then dP_lo
  else if x = 1 then dP_go
  else
    let dP_l := dP_single fd (m * (1 - x)) rhol mul D roughness L
    let dP_g := dP_single fd (m * x) rhog mug D roughness L
    let n := Theissing_n dP_l dP_lo dP_g dP_go x
    let eps := Theissing_eps rhol rhog n
    (dP_lo ^ ((1 : ℝ) / (n * eps)) * (1 - x) ^ ((1 : ℝ) / eps) +
      dP_go ^ ((1 : ℝ) / (n * eps)) * x ^ ((1 : ℝ) / eps)) ^ (n * eps)

/-- The Jung-Radermacher (1989) correlation. -/
noncomputable def Jung_Radermacher (fd : ℝ → ℝ → ℝ)
    (m x rhol rhog mul mug D roughness L : ℝ) : ℝ :=
  let dP_lo := dP_single fd m rhol mul D roughness L
  let Xtt := Lockhart_Martinelli_Xtt x rhol rhog mul mug
  let phi_tp2 := 12.82 * Xtt ^ (-1.47 : ℝ) * (1 - x) ^ (1.8 : ℝ)
  phi_tp2 * dP_lo

/-- The Tran (2000) correlation. -/
noncomputable def Tran (fd : ℝ → ℝ → ℝ)
    (m x rhol rhog mul mug sigma D roughness L : ℝ) : ℝ :=
  let dP_lo := dP_single fd m rhol mul D roughness L
  let dP_go := dP_single fd m rhog mug D roughness L
  let Gamma2 := dP_go / dP_lo
  let Co := Confinement D rhol rhog sigma
  let phi_lo2 := 1 + (4.3 * Gamma2 - 1) *
    (Co * x ^ (0.875 : ℝ) * (1 - x) ^ (0.875 : ℝ) + x ^ (1.75 : ℝ))
  dP_lo * phi_lo2

/-- The low-Bond-number Omega factor of Chen_Friedel exactly as the code
computes it: the coefficient multiplying exp(-Bo) is 0.5. -/
noncomputable def ChenOmegaLow (Relo Reg Bo : ℝ) : ℝ :=
  0.0333 * Relo ^ (0.45 : ℝ) / (Reg ^ (0.09 : ℝ) * (1 + 0.5 * Real.exp (-Bo)))

/-- Modelled from the spec: the low-Bond-number Omega factor as documented in
the correlation's own docstring and governing reference, with coefficient
0.4 multiplying exp(-Bo). -/
noncomputable def ChenOmegaLowDoc (Relo Reg Bo : ℝ) : ℝ :=
  0.0333 * Relo ^ (0.45 : ℝ) / (Reg ^ (0.09 : ℝ) * (1 + 0.4 * Real.exp (-Bo)))

/-- The Chen modification factor Omega applied to the Friedel result, with
the quartered Bond number and the branch on Bo < 2.5. -/
noncomputable def ChenOmega (m x rhol rhog mul mug sigma D : ℝ) : ℝ :=
  let Bo := Bond rhol rhog sigma D / 4
  if Bo < 2.5 then
    let Re_lo := Re_single m rhol mul D
    let Re_g := Re_single (m * x) rhog mug D
    ChenOmegaLow Re_lo Re_g Bo
  else
    let rho_h := 1 / (x / rhog + (1 - x) / rhol)
    let v_h := m / rho_h / (Real.pi / 4 * D ^ 2)
    let We := Weber v_h D rho_h sigma
    We ^ (0.2 : ℝ) / (2.5 + 0.06 * Bo)

/-- The Chen modification of the Friedel correlation.  The Friedel part is
recomputed inline, with the homogeneous density written directly as
1/(x/rhog + (1-x)/rhol) instead of through the void-fraction provider. -/
noncomputable def Chen_Friedel (fd : ℝ → ℝ → ℝ)
    (m x rhol rhog mul mug sigma D roughness L : ℝ) : ℝ :=
  let fd_lo := fd_single fd m rhol mul D roughness
  let dP_lo := dP_single fd m rhol mul D roughness L
  let fd_go := fd_single fd m rhog mug D roughness
  let F := x ^ (0.78 : ℝ) * (1 - x) ^ (0.224 : ℝ)
  let H := (rhol / rhog) ^ (0.91 : ℝ) * (mug / mul) ^ (0.19 : ℝ) *
    friedelHBase mul mug ^ (0.7 : ℝ)
  let E := (1 - x) ^ 2 + x ^ 2 * (rhol * fd_go / (rhog * fd_lo))
  let rho_h := 1 / (x / rhog + (1 - x) / rhol)
  let v_h := m / rho_h / (Real.pi / 4 * D ^ 2)
  let Fr := Froude v_h D
  let We := Weber v_h D rho_h sigma
  let phi_lo2 := E + 3.24 * F * H / (Fr ^ (0.0454 : ℝ) * We ^ (0.035 : ℝ))
  let dP := phi_lo2 * dP_lo
  dP * ChenOmega m x rhol rhog mul mug sigma D

/-- The Zhang-Webb (2001) correlation. -/
noncomputable def Zhang_Webb (fd : ℝ → ℝ → ℝ)
    (m x rhol mul P Pc D roughness L : ℝ) : ℝ :=
  let dP_lo := dP_single fd m rhol mul D roughness L
  let Pr := P / Pc
  let phi_lo2 := (1 - x) ^ 2 + 2.87 * x ^ 2 / Pr +
    1.68 * x ^ (0.8 : ℝ) * (1 - x) ^ (0.25 : ℝ) * Pr ^ (-1.64 : ℝ)
  dP_lo * phi_lo2

/-- A constant friction-factor provider; it returns a positive Darcy friction
factor everywhere, so it satisfies the documented provider contract. -/
noncomputable def fdConst : ℝ → ℝ → ℝ := fun _ _ => 0.02

/-- A rapidly decaying friction-factor provider; it returns a positive Darcy
friction factor at every Reynolds number and relative roughness, so it
satisfies the documented provider contract. -/
noncomputable def fdDecay : ℝ → ℝ → ℝ := fun re _ => Real.exp (-re)

/-- Modelled from the source signature lines: for each correlation whose
signature takes both a roughness and a length parameter, whether the
signature supplies default values (roughness=0, L=1) for both.  The
Chen_Friedel signature takes roughness and L with no default values. -/
def hasRoughnessLengthDefaults : List (String × Bool) :=
  [("Friedel", true), ("Gronnerud", true), ("Chisholm", true),
   ("Baroczy_Chisholm", true), ("Muller_Steinhagen_Heck", true),
   ("Theissing", true), ("Jung_Radermacher", true), ("Tran", true),
   ("Chen_Friedel", false), ("Zhang_Webb", true)]

theorem grav_pos : 0 < grav := by norm_num [grav]

theorem dP_single_nonneg {fd : ℝ → ℝ → ℝ} (hfd : ∀ re ed, 0 ≤ fd re ed)
    {rho D L : ℝ} (hrho : 0 ≤ rho) (hD : 0 ≤ D) (hL : 0 ≤ L)
    (mflow mu roughness : ℝ) :
    0 ≤ dP_single fd mflow rho mu D roughness L := by
  unfold dP_single fd_single
  have h := hfd (Re_single mflow rho mu D) (roughness / D)
  have hv : (0:ℝ) ≤ 0.5 * rho * v_single mflow rho D ^ 2 := by positivity
  exact mul_nonneg (div_nonneg (mul_nonneg h hL) hD) hv

theorem dP_single_pos {fd : ℝ → ℝ → ℝ} (hfd : ∀ re ed, 0 < fd re ed)
    {mflow rho D L : ℝ} (hm : 0 < mflow) (hrho : 0 < rho) (hD : 0 < D) (hL : 0 < L)
    (mu roughness : ℝ) :
    0 < dP_single fd mflow rho mu D roughness L := by
  unfold dP_single fd_single v_single
  have h := hfd (Re_single mflow rho mu D) (roughness / D)
  have hpi := Real.pi_pos
  positivity

theorem dP_single_scale (fd : ℝ → ℝ → ℝ) (mflow rho mu D roughness L k : ℝ) :
    dP_single fd mflow rho mu D roughness (k * L)
      = k * dP_single fd mflow rho mu D roughness L := by
  unfold dP_single
  ring

theorem homogeneous_nonneg {x rhol rhog : ℝ} (hx : 0 ≤ x) (hx1 : x ≤ 1)
    (hl : 0 ≤ rhol) (hg : 0 ≤ rhog) : 0 ≤ homogeneous x rhol rhog := by
  unfold homogeneous
  have h1 : 0 ≤ x / rhog := div_nonneg hx hg
  have h2 : 0 ≤ (1 - x) / rhol := div_nonneg (by linarith) hl
  exact div_nonneg h1 (by linarith)

theorem homogeneous_le_one {x rhol rhog : ℝ} (hx : 0 ≤ x) (hx1 : x ≤ 1)
    (hl : 0 ≤ rhol) (hg : 0 ≤ rhog) : homogeneous x rhol rhog ≤ 1 := by
  unfold homogeneous
  have h1 : 0 ≤ x / rhog := div_nonneg hx hg
  have h2 : 0 ≤ (1 - x) / rhol := div_nonneg (by linarith) hl
  rcases eq_or_lt_of_le (by linarith : (0:ℝ) ≤ x / rhog + (1 - x) / rhol) with h | h
  · rw [← h, div_zero]
    norm_num
  · rw [div_le_one h]
    linarith

theorem mixture_density_eq {x rhol rhog : ℝ} (hl : 0 < rhol) (hg : 0 < rhog)
    (hx : 0 ≤ x) (hx1 : x ≤ 1) :
    rhol * (1 - homogeneous x rhol rhog) + rhog * homogeneous x rhol rhog
      = 1 / (x / rhog + (1 - x) / rhol) := by
  have hnum : 0 < x * rhol + (1 - x) * rhog := by
    rcases lt_or_eq_of_le hx with h0 | h0
    · have : 0 < x * rhol := mul_pos h0 hl
      nlinarith
    · rw [← h0]
      nlinarith
  have hd : x * rhol + (1 - x) * rhog ≠ 0 := ne_of_gt hnum
  have hS : x / rhog + (1 - x) / rhol = (x * rhol + (1 - x) * rhog) / (rhog * rhol) := by
    field_simp
  have ha : homogeneous x rhol rhog = x * rhol / (x * rhol + (1 - x) * rhog) := by
    unfold homogeneous
    rw [hS, div_div_eq_mul_div]
    congr 1
    field_simp
    ring
  rw [ha, hS, one_div_div]
  field_simp
  ring

theorem rpow_half_sq {r : ℝ} (hr : 0 ≤ r) : (r ^ (0.5 : ℝ)) ^ 2 = r := by
  rw [show (0.5:ℝ) = 1/2 by norm_num, ← Real.sqrt_eq_rpow, Real.sq_sqrt hr]

theorem rpow_half_eq_sqrt (r : ℝ) : r ^ (0.5 : ℝ) = Real.sqrt r := by
  rw [Real.sqrt_eq_rpow]
  norm_num

theorem rpow_quarter_ten_thousand : (10000 : ℝ) ^ (0.25 : ℝ) = 10 := by
  have h : (10000 : ℝ) = (10 : ℝ) ^ (4 : ℝ) := by
    rw [show (4:ℝ) = ((4:ℕ):ℝ) by norm_num, Real.rpow_natCast]
    norm_num
  rw [h, ← Real.rpow_mul (by norm_num : (0:ℝ) ≤ 10),
    show (4:ℝ) * 0.25 = 1 by norm_num, Real.rpow_one]

theorem half_rpow_bound : (1/4 : ℝ) ≤ (1/2 : ℝ) ^ (1.8 : ℝ) := by
  have h := Real.rpow_le_rpow_of_exponent_ge (by norm_num : (0:ℝ) < 1/2)
    (by norm_num : (1/2:ℝ) ≤ 1) (by norm_num : (1.8:ℝ) ≤ 2)
  calc (1/4 : ℝ) = (1/2 : ℝ) ^ (2 : ℝ) := by
        rw [show (2:ℝ) = ((2:ℕ):ℝ) by norm_num, Real.rpow_natCast]
        norm_num
    _ ≤ (1/2 : ℝ) ^ (1.8 : ℝ) := h

theorem four_lt_exp_two : (4 : ℝ) < Real.exp 2 := by
  have h := Real.exp_one_gt_d9
  have h2 : Real.exp 2 = Real.exp 1 * Real.exp 1 := by
    rw [← Real.exp_add]
    norm_num
  nlinarith [Real.exp_pos 1]

theorem fdConst_pos : ∀ re ed : ℝ, 0 < fdConst re ed := by
  intro re ed
  norm_num [fdConst]

theorem fdDecay_pos : ∀ re ed : ℝ, 0 < fdDecay re ed := by
  intro re ed
  exact Real.exp_pos _

/-- Claim C10: at quality 0 the Theissing result does not depend on the gas
density or viscosity, and at quality 1 it does not depend on the liquid
density or viscosity. -/
theorem Theissing_unused_phase :
    ∀ (fd : ℝ → ℝ → ℝ) (m rhol rhol2 rhog rhog2 mul mul2 mug mug2 D roughness L : ℝ),
      Theissing fd m 0 rhol rhog mul mug D roughness L
        = Theissing fd m 0 rhol rhog2 mul mug2 D roughness L ∧
      Theissing fd m 1 rhol rhog mul mug D roughness L
        = Theissing fd m 1 rhol2 rhog mul2 mug D roughness L := by
  intro fd m rhol rhol2 rhog rhog2 mul mul2 mug mug2 D roughness L
  constructor
  · simp [Theissing]
  · simp [Theissing]

/-- Claim C1 (code bug): the low-Bond-number Omega computed by the code,
whose coefficient on exp(-Bo) is 0.5, differs from the documented form with
coefficient 0.4, evaluated here at Re_lo = Re_g = Bo = 1. -/
theorem ChenOmegaLow_ne_doc : ChenOmegaLow 1 1 1 ≠ ChenOmegaLowDoc 1 1 1 := by
  unfold ChenOmegaLow ChenOmegaLowDoc
  rw [Real.one_rpow, Real.one_rpow]
  have hE : 0 < Real.exp (-1) := Real.exp_pos _
  intro h
  rw [div_eq_div_iff (by positivity) (by positivity)] at h
  nlinarith

/-- Claim C8 (code bug): Chen_Friedel is recorded among the correlations whose
signature takes roughness and length without supplying default values. -/
theorem Chen_Friedel_defaults_missing :
    ("Chen_Friedel", false) ∈ hasRoughnessLengthDefaults := by
  simp [hasRoughnessLengthDefaults]

/-- Claim C9: the H-factor base 1 - mug/mul shared by Friedel and
Chen_Friedel is positive whenever mug < mul, so the negative-base branch of
the fractional power (1 - mug/mul)^0.7 is unreachable there; and whenever
mul < mug the base is negative and its principal complex power to the 0.7
has nonzero imaginary part, so the computation leaves the reals. -/
theorem friedelHBase_domain :
    (∀ mul mug : ℝ, 0 < mul → 0 < mug → mug < mul → 0 < friedelHBase mul mug) ∧
    (∀ mul mug : ℝ, 0 < mul → 0 < mug → mul < mug →
      friedelHBase mul mug < 0 ∧
      ((((friedelHBase mul mug : ℝ)) : ℂ) ^ (((0.7 : ℝ)) : ℂ)).im ≠ 0) := by
  constructor
  · intro mul mug hl hg h
    unfold friedelHBase
    have : mug / mul < 1 := (div_lt_one hl).mpr h
    linarith
  · intro mul mug hl hg h
    have hneg : friedelHBase mul mug < 0 := by
      unfold friedelHBase
      have : 1 < mug / mul := (one_lt_div hl).mpr h
      linarith
    refine ⟨hneg, ?_⟩
    have hz : ((friedelHBase mul mug : ℝ) : ℂ) ≠ 0 :=
      Complex.ofReal_ne_zero.mpr (ne_of_lt hneg)
    rw [Complex.cpow_def_of_ne_zero hz, Complex.exp_im]
    have him : (Complex.log ((friedelHBase mul mug : ℝ) : ℂ) * ((0.7:ℝ) : ℂ)).im
        = Real.pi * 0.7 := by
      rw [Complex.mul_im, Complex.ofReal_im, Complex.ofReal_re, Complex.log_im,
        Complex.arg_ofReal_of_neg hneg]
      ring
    rw [him]
    have hsin : 0 < Real.sin (Real.pi * 0.7) := by
      apply Real.sin_pos_of_pos_of_lt_pi
      · have := Real.pi_pos
        nlinarith
      · nlinarith [Real.pi_pos]
    exact ne_of_gt (mul_pos (Real.exp_pos _) hsin)

/-- Witness for C9 at concrete viscosities mul = 2, mug = 1 (safe side) and
mul = 1, mug = 2 (negative-base side). -/
theorem friedelHBase_domain_w :
    0 < friedelHBase 2 1 ∧ friedelHBase 1 2 < 0 :=
  ⟨friedelHBase_domain.1 2 1 (by norm_num) (by norm_num) (by norm_num),
   (friedelHBase_domain.2 1 2 (by norm_num) (by norm_num) (by norm_num)).1⟩

/-- Claim C2: with rough_correction false, Chisholm computes
Gamma = sqrt(dP_go/dP_lo) and G_tp = m/(pi/4*D^2) and selects the
coefficient B exactly by the documented three-band table, with the
closed/open interval boundaries exactly at the stated thresholds. -/
theorem Chisholm_B_selection :
    (∀ Gamma G_tp : ℝ, 0 < G_tp →
      (Gamma ≤ 9.5 →
        (G_tp ≤ 500 → ChisholmB Gamma G_tp = 4.8) ∧
        (500 < G_tp → G_tp < 1900 → ChisholmB Gamma G_tp = 2400 / G_tp) ∧
        (1900 ≤ G_tp → ChisholmB Gamma G_tp = 55 / Real.sqrt G_tp)) ∧
      (9.5 < Gamma → Gamma ≤ 28 →
        (G_tp ≤ 600 → ChisholmB Gamma G_tp = 520 / (Gamma * Real.sqrt G_tp)) ∧
        (600 < G_tp → ChisholmB Gamma G_tp = 21 / Gamma)) ∧
      (28 < Gamma → ChisholmB Gamma G_tp = 15000 / (Gamma ^ 2 * Real.sqrt G_tp))) ∧
    (∀ (fd : ℝ → ℝ → ℝ) (m x rhol rhog mul mug D roughness L : ℝ),
      (∀ re ed, 0 ≤ fd re ed) → 0 ≤ rhol → 0 ≤ rhog → 0 ≤ D → 0 ≤ L →
      Chisholm fd m x rhol rhog mul mug D roughness L false =
        (1 + (dP_single fd m rhog mug D roughness L / dP_single fd m rhol mul D roughness L - 1) *
          (ChisholmB
              (Real.sqrt (dP_single fd m rhog mug D roughness L / dP_single fd m rhol mul D roughness L))
              (m / (Real.pi / 4 * D ^ 2)) * x ^ (0.875 : ℝ) * (1 - x) ^ (0.875 : ℝ) +
            x ^ (1.75 : ℝ))) * dP_single fd m rhol mul D roughness L) := by
  constructor
  · intro Gamma G_tp hG
    have hGs : G_tp ^ (-0.5 : ℝ) = (Real.sqrt G_tp)⁻¹ := by
      rw [show (-0.5:ℝ) = -(0.5) by norm_num, Real.rpow_neg hG.le, rpow_half_eq_sqrt]
    refine ⟨?_, ?_, ?_⟩
    · intro h1
      refine ⟨?_, ?_, ?_⟩
      · intro h2
        simp only [ChisholmB, if_pos h1, if_pos h2]
      · intro h2 h3
        simp only [ChisholmB, if_pos h1, if_neg (not_le.mpr h2), if_pos h3]
      · intro h2
        have h3 : ¬ G_tp ≤ 500 := by linarith
        have h4 : ¬ G_tp < 1900 := by linarith
        simp only [ChisholmB, if_pos h1, if_neg h3, if_neg h4]
        rw [hGs, div_eq_mul_inv]
    · intro h1 h2
      have h3 : ¬ Gamma ≤ 9.5 := by linarith
      refine ⟨?_, ?_⟩
      · intro h4
        simp only [ChisholmB, if_neg h3, if_pos h2, if_pos h4]
        rw [hGs, div_eq_mul_inv, div_eq_mul_inv, mul_inv]
        ring
      · intro h4
        simp only [ChisholmB, if_neg h3, if_pos h2, if_neg (not_le.mpr h4)]
    · intro h1
      have h3 : ¬ Gamma ≤ 9.5 := by linarith
      have h4 : ¬ Gamma ≤ 28 := by linarith
      simp only [ChisholmB, if_neg h3, if_neg h4]
      rw [hGs, div_eq_mul_inv, div_eq_mul_inv, mul_inv]
      ring
  · intro fd m x rhol rhog mul mug D roughness L hfd hl hg hD hL
    have hlo := dP_single_nonneg hfd hl hD hL m mul roughness
    have hgo := dP_single_nonneg hfd hg hD hL m mug roughness
    have hratio : 0 ≤ dP_single fd m rhog mug D roughness L / dP_single fd m rhol mul D roughness L :=
      div_nonneg hgo hlo
    simp only [Chisholm, if_neg Bool.false_ne_true]
    rw [rpow_half_eq_sqrt, Real.sq_sqrt hratio]
    norm_num

/-- Claim C3: Friedel, Chisholm (rough_correction false), Baroczy_Chisholm,
Muller_Steinhagen_Heck and Theissing return exactly the liquid-only
single-phase drop of the shared primitive at quality 0 and exactly the
gas-only single-phase drop at quality 1, for every valid input. -/
theorem endpoint_reduction :
    ∀ (fd : ℝ → ℝ → ℝ) (m rhol rhog mul mug sigma D roughness L : ℝ),
      (∀ re ed, 0 < fd re ed) → 0 < m → 0 < rhol → 0 < rhog → 0 < mul → 0 < mug →
      0 < sigma → 0 < D → 0 ≤ roughness → 0 < L →
      (Friedel fd m 0 rhol rhog mul mug sigma D roughness L
          = dP_single fd m rhol mul D roughness L ∧
        Friedel fd m 1 rhol rhog mul mug sigma D roughness L
          = dP_single fd m rhog mug D roughness L) ∧
      (Chisholm fd m 0 rhol rhog mul mug D roughness L false
          = dP_single fd m rhol mul D roughness L ∧
        Chisholm fd m 1 rhol rhog mul mug D roughness L false
          = dP_single fd m rhog mug D roughness L) ∧
      (Baroczy_Chisholm fd m 0 rhol rhog mul mug D roughness L
          = dP_single fd m rhol mul D roughness L ∧
        Baroczy_Chisholm fd m 1 rhol rhog mul mug D roughness L
          = dP_single fd m rhog mug D roughness L) ∧
      (Muller_Steinhagen_Heck fd m 0 rhol rhog mul mug D roughness L
          = dP_single fd m rhol mul D roughness L ∧
        Muller_Steinhagen_Heck fd m 1 rhol rhog mul mug D roughness L
          = dP_single fd m rhog mug D roughness L) ∧
      (Theissing fd m 0 rhol rhog mul mug D roughness L
          = dP_single fd m rhol mul D roughness L ∧
        Theissing fd m 1 rhol rhog mul mug D roughness L
          = dP_single fd m rhog mug D roughness L) := by
  intro fd m rhol rhog mul mug sigma D roughness L hfd hm hl hg hmul hmug hsig hD hr hL
  have hfd0 : ∀ re ed, 0 ≤ fd re ed := fun re ed => (hfd re ed).le
  have hlo_pos : 0 < dP_single fd m rhol mul D roughness L :=
    dP_single_pos hfd hm hl hD hL mul roughness
  have hgo0 : 0 ≤ dP_single fd m rhog mug D roughness L :=
    dP_single_nonneg hfd0 hg.le hD.le hL.le m mug roughness
  have hratio : 0 ≤ dP_single fd m rhog mug D roughness L
      / dP_single fd m rhol mul D roughness L :=
    div_nonneg hgo0 hlo_pos.le
  refine ⟨⟨?_, ?_⟩, ⟨?_, ?_⟩, ⟨?_, ?_⟩, ⟨?_, ?_⟩, ⟨?_, ?_⟩⟩
  · norm_num [Friedel, Real.zero_rpow]
  · simp only [Friedel, dP_single, fd_single, v_single]
    have hflo : 0 < fd (Re_single m rhol mul D) (roughness / D) := hfd _ _
    norm_num [Real.zero_rpow]
    field_simp
    ring
  · simp only [Chisholm, if_neg Bool.false_ne_true]
    norm_num [Real.zero_rpow]
  · simp only [Chisholm, if_neg Bool.false_ne_true]
    norm_num [Real.zero_rpow, Real.one_rpow]
    rw [← Real.sqrt_eq_rpow, Real.sq_sqrt hratio]
    exact div_mul_cancel₀ _ (ne_of_gt hlo_pos)
  · norm_num [Baroczy_Chisholm, Real.zero_rpow]
  · simp only [Baroczy_Chisholm]
    norm_num [Real.zero_rpow, Real.one_rpow]
    rw [← Real.sqrt_eq_rpow, Real.sq_sqrt hratio]
    exact div_mul_cancel₀ _ (ne_of_gt hlo_pos)
  · norm_num [Muller_Steinhagen_Heck, Real.one_rpow]
  · norm_num [Muller_Steinhagen_Heck, Real.zero_rpow]
  · simp [Theissing]
  · simp [Theissing]

/-- Witness for C3 at a concrete valid input with the constant provider. -/
theorem endpoint_reduction_w :
    Chisholm fdConst 1 1 1 1 1 1 1 0 1 false = dP_single fdConst 1 1 1 1 0 1 :=
  ((endpoint_reduction fdConst 1 1 1 1 1 1 1 0 1 fdConst_pos (by norm_num)
    (by norm_num) (by norm_num) (by norm_num) (by norm_num) (by norm_num)
    (by norm_num) (by norm_num) (by norm_num)).2.1).2

/-- Witness for C2 in the first band of the B table. -/
theorem Chisholm_B_selection_w : ChisholmB 1 100 = 4.8 :=
  ((Chisholm_B_selection.1 1 100 (by norm_num)).1 (by norm_num)).1 (by norm_num)

/-- Claim C5: Chen_Friedel returns exactly the Friedel value on the same
arguments multiplied by the Omega factor, and the homogeneous density
computed directly inside Chen_Friedel equals the one Friedel obtains
through the homogeneous void-fraction provider. -/
theorem Chen_Friedel_refines_Friedel :
    ∀ (fd : ℝ → ℝ → ℝ) (m x rhol rhog mul mug sigma D roughness L : ℝ),
      0 < rhol → 0 < rhog → 0 ≤ x → x ≤ 1 →
      (rhol * (1 - homogeneous x rhol rhog) + rhog * homogeneous x rhol rhog
          = 1 / (x / rhog + (1 - x) / rhol)) ∧
      Chen_Friedel fd m x rhol rhog mul mug sigma D roughness L
        = Friedel fd m x rhol rhog mul mug sigma D roughness L
            * ChenOmega m x rhol rhog mul mug sigma D := by
  intro fd m x rhol rhog mul mug sigma D roughness L hl hg hx hx1
  have hmix := mixture_density_eq hl hg hx hx1
  refine ⟨hmix, ?_⟩
  simp only [Chen_Friedel, Friedel]
  rw [← hmix]

/-- Witness for C5 at a concrete valid input. -/
theorem Chen_Friedel_refines_Friedel_w :
    Chen_Friedel fdConst 1 (1/2) 2 1 1 1 1 1 0 1
      = Friedel fdConst 1 (1/2) 2 1 1 1 1 1 0 1 * ChenOmega 1 (1/2) 2 1 1 1 1 1 :=
  (Chen_Friedel_refines_Friedel fdConst 1 (1/2) 2 1 1 1 1 1 0 1
    (by norm_num) (by norm_num) (by norm_num) (by norm_num)).2

theorem Theissing_n_scale {k : ℝ} (hk : k ≠ 0) (a b c d x : ℝ) :
    Theissing_n (k * a) (k * b) (k * c) (k * d) x = Theissing_n a b c d x := by
  unfold Theissing_n
  rw [mul_div_mul_left _ _ hk, mul_div_mul_left _ _ hk, mul_div_mul_left _ _ hk]

/-- Claim C6: every correlation's result is homogeneous of degree one in the
pipe length: computing with k*L returns k times the value at L (for the
interior branch of Theissing this additionally uses that the blending
exponent product n*eps is nonzero, which is otherwise a numeric domain
error under the spec's taxonomy). -/
theorem length_linearity :
    ∀ (fd : ℝ → ℝ → ℝ) (m x rhol rhog mul mug sigma P Pc D roughness L k : ℝ),
      0 < k →
      (Friedel fd m x rhol rhog mul mug sigma D roughness (k * L)
          = k * Friedel fd m x rhol rhog mul mug sigma D roughness L) ∧
      (Gronnerud fd m x rhol rhog mul mug D roughness (k * L)
          = k * Gronnerud fd m x rhol rhog mul mug D roughness L) ∧
      (∀ rc : Bool, Chisholm fd m x rhol rhog mul mug D roughness (k * L) rc
          = k * Chisholm fd m x rhol rhog mul mug D roughness L rc) ∧
      (Baroczy_Chisholm fd m x rhol rhog mul mug D roughness (k * L)
          = k * Baroczy_Chisholm fd m x rhol rhog mul mug D roughness L) ∧
      (Muller_Steinhagen_Heck fd m x rhol rhog mul mug D roughness (k * L)
          = k * Muller_Steinhagen_Heck fd m x rhol rhog mul mug D roughness L) ∧
      (Lombardi_Pedrocchi m x rhol rhog sigma D (k * L)
          = k * Lombardi_Pedrocchi m x rhol rhog sigma D L) ∧
      ((∀ re ed, 0 ≤ fd re ed) → 0 ≤ rhol → 0 ≤ rhog → 0 ≤ D → 0 ≤ L → 0 ≤ x → x ≤ 1 →
        Theissing_n (dP_single fd (m * (1 - x)) rhol mul D roughness L)
            (dP_single fd m rhol mul D roughness L)
            (dP_single fd (m * x) rhog mug D roughness L)
            (dP_single fd m rhog mug D roughness L) x *
          Theissing_eps rhol rhog
            (Theissing_n (dP_single fd (m * (1 - x)) rhol mul D roughness L)
              (dP_single fd m rhol mul D roughness L)
              (dP_single fd (m * x) rhog mug D roughness L)
              (dP_single fd m rhog mug D roughness L) x) ≠ 0 →
        Theissing fd m x rhol rhog mul mug D roughness (k * L)
          = k * Theissing fd m x rhol rhog mul mug D roughness L) ∧
      (Jung_Radermacher fd m x rhol rhog mul mug D roughness (k * L)
          = k * Jung_Radermacher fd m x rhol rhog mul mug D roughness L) ∧
      (Tran fd m x rhol rhog mul mug sigma D roughness (k * L)
          = k * Tran fd m x rhol rhog mul mug sigma D roughness L) ∧
      (Chen_Friedel fd m x rhol rhog mul mug sigma D roughness (k * L)
          = k * Chen_Friedel fd m x rhol rhog mul mug sigma D roughness L) ∧
      (Zhang_Webb fd m x rhol mul P Pc D roughness (k * L)
          = k * Zhang_Webb fd m x rhol mul P Pc D roughness L) := by
  intro fd m x rhol rhog mul mug sigma P Pc D roughness L k hk
  have hk0 : k ≠ 0 := ne_of_gt hk
  refine ⟨?_, ?_, ?_, ?_, ?_, ?_, ?_, ?_, ?_, ?_, ?_⟩
  · simp only [Friedel]
    rw [dP_single_scale]
    ring
  · simp only [Gronnerud]
    rw [dP_single_scale]
    ring
  · intro rc
    simp only [Chisholm]
    rw [dP_single_scale fd m rhol mul D roughness L k,
      dP_single_scale fd m rhog mug D roughness L k,
      mul_div_mul_left _ _ hk0]
    ring
  · simp only [Baroczy_Chisholm]
    rw [dP_single_scale fd m rhol mul D roughness L k,
      dP_single_scale fd m rhog mug D roughness L k,
      mul_div_mul_left _ _ hk0]
    ring
  · simp only [Muller_Steinhagen_Heck]
    rw [dP_single_scale fd m rhol mul D roughness L k,
      dP_single_scale fd m rhog mug D roughness L k]
    ring
  · simp only [Lombardi_Pedrocchi]
    ring
  · intro hfd0 hl hg hD hL hx hx1 hne
    by_cases hx0 : x = 0
    · subst hx0
      simp only [Theissing, if_pos]
      exact dP_single_scale fd m rhol mul D roughness L k
    · by_cases hxo : x = 1
      · subst hxo
        simp only [Theissing, if_neg (by norm_num : (1:ℝ) ≠ 0), if_pos]
        exact dP_single_scale fd m rhog mug D roughness L k
      · have hlo0 : 0 ≤ dP_single fd m rhol mul D roughness L :=
          dP_single_nonneg hfd0 hl hD hL m mul roughness
        have hgo0 : 0 ≤ dP_single fd m rhog mug D roughness L :=
          dP_single_nonneg hfd0 hg hD hL m mug roughness
        simp only [Theissing, if_neg hx0, if_neg hxo]
        rw [dP_single_scale fd m rhol mul D roughness L k,
          dP_single_scale fd m rhog mug D roughness L k,
          dP_single_scale fd (m * (1 - x)) rhol mul D roughness L k,
          dP_single_scale fd (m * x) rhog mug D roughness L k,
          Theissing_n_scale hk0]
        set nT := Theissing_n (dP_single fd (m * (1 - x)) rhol mul D roughness L)
          (dP_single fd m rhol mul D roughness L)
          (dP_single fd (m * x) rhog mug D roughness L)
          (dP_single fd m rhog mug D roughness L) x with hnT
        set eT := Theissing_eps rhol rhog nT with heT
        set dlo := dP_single fd m rhol mul D roughness L with hdlo
        set dgo := dP_single fd m rhog mug D roughness L with hdgo
        have hxs : (0:ℝ) ≤ 1 - x := by linarith
        rw [Real.mul_rpow hk.le hlo0, Real.mul_rpow hk.le hgo0]
        have hfac : k ^ ((1:ℝ) / (nT * eT)) * dlo ^ ((1:ℝ) / (nT * eT)) * (1 - x) ^ ((1:ℝ) / eT)
            + k ^ ((1:ℝ) / (nT * eT)) * dgo ^ ((1:ℝ) / (nT * eT)) * x ^ ((1:ℝ) / eT)
            = k ^ ((1:ℝ) / (nT * eT)) *
              (dlo ^ ((1:ℝ) / (nT * eT)) * (1 - x) ^ ((1:ℝ) / eT)
                + dgo ^ ((1:ℝ) / (nT * eT)) * x ^ ((1:ℝ) / eT)) := by ring
        rw [hfac]
        have hsum : 0 ≤ dlo ^ ((1:ℝ) / (nT * eT)) * (1 - x) ^ ((1:ℝ) / eT)
            + dgo ^ ((1:ℝ) / (nT * eT)) * x ^ ((1:ℝ) / eT) :=
          add_nonneg
            (mul_nonneg (Real.rpow_nonneg hlo0 _) (Real.rpow_nonneg hxs _))
            (mul_nonneg (Real.rpow_nonneg hgo0 _) (Real.rpow_nonneg hx _))
        rw [Real.mul_rpow (Real.rpow_nonneg hk.le _) hsum,
          ← Real.rpow_mul hk.le, one_div_mul_cancel hne, Real.rpow_one]
  · simp only [Jung_Radermacher]
    rw [dP_single_scale]
    ring
  · simp only [Tran]
    rw [dP_single_scale fd m rhol mul D roughness L k,
      dP_single_scale fd m rhog mug D roughness L k,
      mul_div_mul_left _ _ hk0]
    ring
  · simp only [Chen_Friedel]
    rw [dP_single_scale]
    ring
  · simp only [Zhang_Webb]
    rw [dP_single_scale]
    ring

/-- Witness for C6: Friedel at a concrete input with the length doubled. -/
theorem length_linearity_w :
    Friedel fdConst 1 (1/2) 2 1 1 1 1 1 0 (2 * 1)
      = 2 * Friedel fdConst 1 (1/2) 2 1 1 1 1 1 0 1 :=
  (length_linearity fdConst 1 (1/2) 2 1 1 1 1 1 1 1 0 1 2 (by norm_num)).1

/-- Claim C4 (counterexample): at the physically valid input m = 1000,
x = 1/2, rhol = 2, rhog = 1, mul = 1/100, mug = 1/1000000, D = 1,
roughness = 0, L = 1, with the positive constant friction-factor provider,
Gronnerud returns a strictly negative pressure drop. -/
theorem Gronnerud_negative :
    Gronnerud fdConst 1000 (1/2) 2 1 (1/100) (1/1000000) 1 0 1 < 0 := by
  have hdP : 0 < dP_single fdConst 1000 2 (1/100) 1 0 1 :=
    dP_single_pos fdConst_pos (by norm_num) (by norm_num) (by norm_num) (by norm_num)
      (1/100) 0
  have hpi := Real.pi_pos
  have hpi315 := Real.pi_lt_d2
  have hV : (4:ℝ) ≤ 1000 / (Real.pi / 4 * 1 ^ 2) / 2 := by
    have he : 1000 / (Real.pi / 4 * 1 ^ 2) / 2 = 2000 / Real.pi := by
      field_simp
      ring
    rw [he, le_div_iff₀ hpi]
    nlinarith
  have hFr : 1 ≤ Froude (1000 / (Real.pi / 4 * 1 ^ 2) / 2) 1 := by
    unfold Froude
    rw [mul_one, le_div_iff₀ grav_pos]
    have hg : grav ≤ 16 := by norm_num [grav]
    nlinarith
  simp only [Gronnerud]
  rw [if_pos hFr]
  refine mul_neg_of_neg_of_pos ?_ hdP
  rw [show ((1:ℝ)/100) / (1/1000000) = 10000 from by norm_num,
    rpow_quarter_ten_thousand, Real.one_rpow]
  have h1024 : ((1:ℝ)/2) ^ (10:ℕ) = 1/1024 := by norm_num
  nlinarith [half_rpow_bound, h1024]

theorem ChisholmB_nonneg {Gamma G_tp : ℝ} (hG : 0 ≤ G_tp) (hGam : 0 ≤ Gamma) :
    0 ≤ ChisholmB Gamma G_tp := by
  unfold ChisholmB
  split_ifs <;> positivity

theorem ChenOmega_nonneg {m x rhol rhog mul mug sigma D : ℝ} (hm : 0 ≤ m)
    (hl : 0 ≤ rhol) (hg : 0 ≤ rhog) (hmul : 0 ≤ mul) (hmug : 0 ≤ mug)
    (hsig : 0 ≤ sigma) (hD : 0 ≤ D) (hx : 0 ≤ x) (hx1 : x ≤ 1) :
    0 ≤ ChenOmega m x rhol rhog mul mug sigma D := by
  have hRelo : 0 ≤ Re_single m rhol mul D := by
    unfold Re_single Reynolds v_single
    positivity
  have hReg : 0 ≤ Re_single (m * x) rhog mug D := by
    unfold Re_single Reynolds v_single
    positivity
  simp only [ChenOmega]
  split_ifs with h
  · unfold ChenOmegaLow
    positivity
  · have hBo : (2.5:ℝ) ≤ Bond rhol rhog sigma D / 4 := not_lt.mp h
    unfold Weber
    set xc := (1:ℝ) - x with hxcd
    have hxc0 : 0 ≤ xc := by
      rw [hxcd]
      linarith
    apply div_nonneg
    · apply Real.rpow_nonneg
      positivity
    · linarith

/-- Claim C4 (amended): excluding Gronnerud (refuted by the counterexample),
each correlation returns a non-negative (hence finite, being a real number)
pressure drop on valid inputs, under the physically standard extra
hypotheses that the gas is no more viscous than the liquid (Friedel and
Chen_Friedel) and that the gas-only drop is at least the liquid-only drop
(the Chisholm family, Muller_Steinhagen_Heck and Tran). -/
theorem nonneg_amended :
    (∀ (fd : ℝ → ℝ → ℝ) (m x rhol rhog mul mug sigma D roughness L : ℝ),
      (∀ re ed, 0 ≤ fd re ed) → 0 ≤ rhol → 0 ≤ rhog → 0 < mul → 0 ≤ mug →
      mug ≤ mul → 0 ≤ sigma → 0 ≤ D → 0 ≤ L → 0 ≤ x → x ≤ 1 →
      0 ≤ Friedel fd m x rhol rhog mul mug sigma D roughness L) ∧
    (∀ (fd : ℝ → ℝ → ℝ) (m x rhol rhog mul mug D roughness L : ℝ),
      0 ≤ m → 0 ≤ x → x ≤ 1 →
      0 < dP_single fd m rhol mul D roughness L →
      dP_single fd m rhol mul D roughness L ≤ dP_single fd m rhog mug D roughness L →
      0 ≤ Chisholm fd m x rhol rhog mul mug D roughness L false) ∧
    (∀ (fd : ℝ → ℝ → ℝ) (m x rhol rhog mul mug D roughness L : ℝ),
      0 ≤ m → 0 ≤ x → x ≤ 1 →
      0 < dP_single fd m rhol mul D roughness L →
      dP_single fd m rhol mul D roughness L ≤ dP_single fd m rhog mug D roughness L →
      0 ≤ Baroczy_Chisholm fd m x rhol rhog mul mug D roughness L) ∧
    (∀ (fd : ℝ → ℝ → ℝ) (m x rhol rhog mul mug D roughness L : ℝ),
      0 ≤ x → x ≤ 1 →
      0 ≤ dP_single fd m rhol mul D roughness L →
      dP_single fd m rhol mul D roughness L ≤ dP_single fd m rhog mug D roughness L →
      0 ≤ Muller_Steinhagen_Heck fd m x rhol rhog mul mug D roughness L) ∧
    (∀ m x rhol rhog sigma D L : ℝ,
      0 ≤ m → 0 ≤ rhol → 0 ≤ rhog → 0 ≤ sigma → 0 ≤ D → 0 ≤ L → 0 ≤ x → x ≤ 1 →
      0 ≤ Lombardi_Pedrocchi m x rhol rhog sigma D L) ∧
    (∀ (fd : ℝ → ℝ → ℝ) (m x rhol rhog mul mug D roughness L : ℝ),
      (∀ re ed, 0 ≤ fd re ed) → 0 ≤ rhol → 0 ≤ rhog → 0 ≤ D → 0 ≤ L →
      0 ≤ x → x ≤ 1 →
      0 ≤ Theissing fd m x rhol rhog mul mug D roughness L) ∧
    (∀ (fd : ℝ → ℝ → ℝ) (m x rhol rhog mul mug D roughness L : ℝ),
      (∀ re ed, 0 ≤ fd re ed) → 0 ≤ rhol → 0 ≤ rhog → 0 ≤ mul → 0 ≤ mug →
      0 ≤ D → 0 ≤ L → 0 ≤ x → x ≤ 1 →
      0 ≤ Jung_Radermacher fd m x rhol rhog mul mug D roughness L) ∧
    (∀ (fd : ℝ → ℝ → ℝ) (m x rhol rhog mul mug sigma D roughness L : ℝ),
      0 ≤ x → x ≤ 1 → 0 ≤ D →
      0 < dP_single fd m rhol mul D roughness L →
      dP_single fd m rhol mul D roughness L ≤ dP_single fd m rhog mug D roughness L →
      0 ≤ Tran fd m x rhol rhog mul mug sigma D roughness L) ∧
    (∀ (fd : ℝ → ℝ → ℝ) (m x rhol rhog mul mug sigma D roughness L : ℝ),
      (∀ re ed, 0 ≤ fd re ed) → 0 ≤ m → 0 ≤ rhol → 0 ≤ rhog → 0 < mul → 0 ≤ mug →
      mug ≤ mul → 0 ≤ sigma → 0 ≤ D → 0 ≤ L → 0 ≤ x → x ≤ 1 →
      0 ≤ Chen_Friedel fd m x rhol rhog mul mug sigma D roughness L) ∧
    (∀ (fd : ℝ → ℝ → ℝ) (m x rhol mul P Pc D roughness L : ℝ),
      (∀ re ed, 0 ≤ fd re ed) → 0 ≤ rhol → 0 ≤ D → 0 ≤ L → 0 ≤ x → x ≤ 1 →
      0 ≤ P → 0 ≤ Pc →
      0 ≤ Zhang_Webb fd m x rhol mul P Pc D roughness L) := by
  refine ⟨?_, ?_, ?_, ?_, ?_, ?_, ?_, ?_, ?_, ?_⟩
  · intro fd m x rhol rhog mul mug sigma D roughness L hfd0 hl hg hmul hmug hle hsig hD hL hx hx1
    have hdp := dP_single_nonneg hfd0 hl hD hL m mul roughness
    have h1 : 0 ≤ fd_single fd m rhol mul D roughness := hfd0 _ _
    have h2 : 0 ≤ fd_single fd m rhog mug D roughness := hfd0 _ _
    have hHb : 0 ≤ friedelHBase mul mug := by
      unfold friedelHBase
      rw [sub_nonneg]
      exact (div_le_one hmul).mpr hle
    have hv0 := homogeneous_nonneg hx hx1 hl hg
    have hv1 := homogeneous_le_one hx hx1 hl hg
    have hgr := grav_pos
    simp only [Friedel, Froude, Weber]
    set xc := (1:ℝ) - x with hxcd
    have hxc0 : 0 ≤ xc := by
      rw [hxcd]
      linarith
    set vg := homogeneous x rhol rhog with hvgd
    set rr := rhol * (1 - vg) + rhog * vg with hrrd
    have hrr0 : 0 ≤ rr := by
      rw [hrrd]
      nlinarith
    positivity
  · intro fd m x rhol rhog mul mug D roughness L hm hx hx1 hlo hle
    have hratio1 : 1 ≤ dP_single fd m rhog mug D roughness L
        / dP_single fd m rhol mul D roughness L := (one_le_div hlo).mpr hle
    have hratio0 : 0 ≤ dP_single fd m rhog mug D roughness L
        / dP_single fd m rhol mul D roughness L := le_trans zero_le_one hratio1
    simp only [Chisholm, if_neg Bool.false_ne_true]
    rw [rpow_half_eq_sqrt, Real.sq_sqrt hratio0]
    apply mul_nonneg _ hlo.le
    set xc := (1:ℝ) - x with hxcd
    have hxc0 : 0 ≤ xc := by
      rw [hxcd]
      linarith
    set r := dP_single fd m rhog mug D roughness L
      / dP_single fd m rhol mul D roughness L with hrd
    have key : ∀ B : ℝ, 0 ≤ B →
        0 ≤ 1 + (r - 1) * (B * x ^ ((2 - 0.25) / 2 : ℝ) * xc ^ ((2 - 0.25) / 2 : ℝ)
          + x ^ ((2:ℝ) - 0.25)) := by
      intro B hB
      have hK : 0 ≤ B * x ^ ((2 - 0.25) / 2 : ℝ) * xc ^ ((2 - 0.25) / 2 : ℝ)
          + x ^ ((2:ℝ) - 0.25) := by positivity
      nlinarith [mul_nonneg (sub_nonneg.mpr hratio1) hK]
    apply key
    exact ChisholmB_nonneg (div_nonneg hm (by positivity)) (Real.sqrt_nonneg _)
  · intro fd m x rhol rhog mul mug D roughness L hm hx hx1 hlo hle
    have hratio1 : 1 ≤ dP_single fd m rhog mug D roughness L
        / dP_single fd m rhol mul D roughness L := (one_le_div hlo).mpr hle
    have hratio0 : 0 ≤ dP_single fd m rhog mug D roughness L
        / dP_single fd m rhol mul D roughness L := le_trans zero_le_one hratio1
    simp only [Baroczy_Chisholm]
    rw [rpow_half_eq_sqrt, Real.sq_sqrt hratio0]
    apply mul_nonneg _ hlo.le
    set xc := (1:ℝ) - x with hxcd
    have hxc0 : 0 ≤ xc := by
      rw [hxcd]
      linarith
    set r := dP_single fd m rhog mug D roughness L
      / dP_single fd m rhol mul D roughness L with hrd
    have key : ∀ B : ℝ, 0 ≤ B →
        0 ≤ 1 + (r - 1) * (B * x ^ ((2 - 0.25) / 2 : ℝ) * xc ^ ((2 - 0.25) / 2 : ℝ)
          + x ^ ((2:ℝ) - 0.25)) := by
      intro B hB
      have hK : 0 ≤ B * x ^ ((2 - 0.25) / 2 : ℝ) * xc ^ ((2 - 0.25) / 2 : ℝ)
          + x ^ ((2:ℝ) - 0.25) := by positivity
      nlinarith [mul_nonneg (sub_nonneg.mpr hratio1) hK]
    apply key
    split_ifs <;> positivity
  · intro fd m x rhol rhog mul mug D roughness L hx hx1 hlo0 hle
    simp only [Muller_Steinhagen_Heck]
    have hxc : (0:ℝ) ≤ 1 - x := by linarith
    have hgo0 : 0 ≤ dP_single fd m rhog mug D roughness L := le_trans hlo0 hle
    have hG : 0 ≤ dP_single fd m rhol mul D roughness L
        + 2 * (dP_single fd m rhog mug D roughness L
          - dP_single fd m rhol mul D roughness L) * x := by nlinarith
    apply add_nonneg
    · exact mul_nonneg hG (Real.rpow_nonneg hxc _)
    · exact mul_nonneg hgo0 (by positivity)
  · intro m x rhol rhog sigma D L hm hl hg hsig hD hL hx hx1
    have hv0 := homogeneous_nonneg hx hx1 hl hg
    have hv1 := homogeneous_le_one hx hx1 hl hg
    simp only [Lombardi_Pedrocchi]
    set vg := homogeneous x rhol rhog with hvgd
    set rr := rhol * (1 - vg) + rhog * vg with hrrd
    have hrr0 : 0 ≤ rr := by
      rw [hrrd]
      nlinarith
    positivity
  · intro fd m x rhol rhog mul mug D roughness L hfd0 hl hg hD hL hx hx1
    have hlo0 := dP_single_nonneg hfd0 hl hD hL m mul roughness
    have hgo0 := dP_single_nonneg hfd0 hg hD hL m mug roughness
    simp only [Theissing]
    split_ifs with h1 h2
    · exact hlo0
    · exact hgo0
    · have hxc : (0:ℝ) ≤ 1 - x := by linarith
      apply Real.rpow_nonneg
      apply add_nonneg
      · exact mul_nonneg (Real.rpow_nonneg hlo0 _) (Real.rpow_nonneg hxc _)
      · exact mul_nonneg (Real.rpow_nonneg hgo0 _) (Real.rpow_nonneg hx _)
  · intro fd m x rhol rhog mul mug D roughness L hfd0 hl hg hmul hmug hD hL hx hx1
    have hlo0 := dP_single_nonneg hfd0 hl hD hL m mul roughness
    simp only [Jung_Radermacher, Lockhart_Martinelli_Xtt]
    set xc := (1:ℝ) - x with hxcd
    have hxc0 : 0 ≤ xc := by
      rw [hxcd]
      linarith
    positivity
  · intro fd m x rhol rhog mul mug sigma D roughness L hx hx1 hD hlo hle
    have hratio1 : 1 ≤ dP_single fd m rhog mug D roughness L
        / dP_single fd m rhol mul D roughness L := (one_le_div hlo).mpr hle
    simp only [Tran]
    apply mul_nonneg hlo.le
    set xc := (1:ℝ) - x with hxcd
    have hxc0 : 0 ≤ xc := by
      rw [hxcd]
      linarith
    have hCo : 0 ≤ Confinement D rhol rhog sigma := by
      unfold Confinement
      exact div_nonneg (Real.sqrt_nonneg _) hD
    have hK : 0 ≤ Confinement D rhol rhog sigma * x ^ (0.875:ℝ) * xc ^ (0.875:ℝ)
        + x ^ (1.75:ℝ) := by positivity
    nlinarith [mul_nonneg (by linarith : (0:ℝ) ≤ 4.3 * (dP_single fd m rhog mug D roughness L
      / dP_single fd m rhol mul D roughness L) - 1) hK]
  · intro fd m x rhol rhog mul mug sigma D roughness L hfd0 hm hl hg hmul hmug hle hsig hD hL hx hx1
    have hdp := dP_single_nonneg hfd0 hl hD hL m mul roughness
    have h1 : 0 ≤ fd_single fd m rhol mul D roughness := hfd0 _ _
    have h2 : 0 ≤ fd_single fd m rhog mug D roughness := hfd0 _ _
    have hHb : 0 ≤ friedelHBase mul mug := by
      unfold friedelHBase
      rw [sub_nonneg]
      exact (div_le_one hmul).mpr hle
    have hgr := grav_pos
    have hOm : 0 ≤ ChenOmega m x rhol rhog mul mug sigma D :=
      ChenOmega_nonneg hm hl hg hmul.le hmug hsig hD hx hx1
    simp only [Chen_Friedel, Froude, Weber]
    set xc := (1:ℝ) - x with hxcd
    have hxc0 : 0 ≤ xc := by
      rw [hxcd]
      linarith
    positivity
  · intro fd m x rhol mul P Pc D roughness L hfd0 hl hD hL hx hx1 hP hPc
    have hdp := dP_single_nonneg hfd0 hl hD hL m mul roughness
    simp only [Zhang_Webb]
    set xc := (1:ℝ) - x with hxcd
    have hxc0 : 0 ≤ xc := by
      rw [hxcd]
      linarith
    positivity

/-- Witness for the amended C4: Lombardi_Pedrocchi at a concrete valid input. -/
theorem nonneg_amended_w : 0 ≤ Lombardi_Pedrocchi 1 (1/2) 2 1 1 1 1 :=
  nonneg_amended.2.2.2.2.1 1 (1/2) 2 1 1 1 1 (by norm_num) (by norm_num)
    (by norm_num) (by norm_num) (by norm_num) (by norm_num) (by norm_num) (by norm_num)

/-- Claim C7 (counterexample): with the everywhere-positive decaying
friction-factor provider, doubling the mass flow from 2 to 4 strictly
decreases the Zhang_Webb result at x = 0 with all other parameters 1 and
roughness 0. -/
theorem Zhang_Webb_not_monotone :
    Zhang_Webb fdDecay 4 0 1 1 1 1 1 0 1 < Zhang_Webb fdDecay 2 0 1 1 1 1 1 0 1 := by
  have hpi := Real.pi_pos
  have hpi4 : Real.pi < 4 := by
    have := Real.pi_lt_d2
    linarith
  have key : ∀ t : ℝ, 2 ≤ t →
      Real.exp (-(2 * t)) * (0.5 * (2 * t) ^ 2) < Real.exp (-t) * (0.5 * t ^ 2) := by
    intro t ht
    have ht0 : 0 < t := by linarith
    have h4 : (4:ℝ) < Real.exp t :=
      lt_of_lt_of_le four_lt_exp_two (Real.exp_le_exp.mpr ht)
    have hexp : Real.exp (-t) = Real.exp t * Real.exp (-(2 * t)) := by
      rw [← Real.exp_add]
      ring_nf
    have hpos : 0 < Real.exp (-(2 * t)) * (0.5 * t ^ 2) := by positivity
    calc Real.exp (-(2 * t)) * (0.5 * (2 * t) ^ 2)
        = 4 * (Real.exp (-(2 * t)) * (0.5 * t ^ 2)) := by ring
      _ < Real.exp t * (Real.exp (-(2 * t)) * (0.5 * t ^ 2)) :=
          mul_lt_mul_of_pos_right h4 hpos
      _ = Real.exp (-t) * (0.5 * t ^ 2) := by
          rw [hexp]
          ring
  have eval : ∀ m : ℝ, Zhang_Webb fdDecay m 0 1 1 1 1 1 0 1
      = Real.exp (-(m / (Real.pi / 4))) * (0.5 * (m / (Real.pi / 4)) ^ 2) := by
    intro m
    simp only [Zhang_Webb, dP_single, fd_single, Re_single, v_single, Reynolds, fdDecay]
    norm_num [Real.zero_rpow]
  have ha : (2:ℝ) ≤ 2 / (Real.pi / 4) := by
    rw [le_div_iff₀ (by positivity)]
    nlinarith
  rw [eval 4, eval 2, show (4:ℝ) / (Real.pi / 4) = 2 * (2 / (Real.pi / 4)) from by ring]
  exact key _ ha

/-- Claim C7 (amended): Lombardi_Pedrocchi, the correlation that does not
consult the friction-factor provider, never decreases when the mass flow
rate doubles; for the provider-dependent correlations the property fails
under a provider meeting only the positivity contract, as the
counterexample shows. -/
theorem Lombardi_mass_monotone :
    ∀ m x rhol rhog sigma D L : ℝ,
      0 ≤ m → 0 ≤ rhol → 0 ≤ rhog → 0 ≤ sigma → 0 ≤ D → 0 ≤ L → 0 ≤ x → x ≤ 1 →
      Lombardi_Pedrocchi m x rhol rhog sigma D L
        ≤ Lombardi_Pedrocchi (2 * m) x rhol rhog sigma D L := by
  intro m x rhol rhog sigma D L hm hl hg hsig hD hL hx hx1
  simp only [Lombardi_Pedrocchi]
  set vg := homogeneous x rhol rhog with hvgd
  set rr := rhol * (1 - vg) + rhog * vg with hrrd
  have hrr0 : 0 ≤ rr := by
    rw [hrrd]
    nlinarith [homogeneous_nonneg hx hx1 hl hg, homogeneous_le_one hx hx1 hl hg]
  set G := m / (Real.pi / 4 * D ^ 2) with hGd
  have hG0 : 0 ≤ G := by
    rw [hGd]
    positivity
  have hG2 : 2 * m / (Real.pi / 4 * D ^ 2) = 2 * G := by
    rw [hGd]
    ring
  rw [hG2, Real.mul_rpow (by norm_num : (0:ℝ) ≤ 2) hG0]
  have base : 0 ≤ 0.83 * G ^ (1.4:ℝ) * sigma ^ (0.4:ℝ) * L
      / (D ^ (1.2:ℝ) * rr ^ (0.866:ℝ)) := by positivity
  have h2 : (1:ℝ) ≤ (2:ℝ) ^ (1.4:ℝ) := by
    calc (1:ℝ) = (2:ℝ) ^ (0:ℝ) := by rw [Real.rpow_zero]
      _ ≤ (2:ℝ) ^ (1.4:ℝ) :=
          Real.rpow_le_rpow_of_exponent_le (by norm_num) (by norm_num)
  calc 0.83 * G ^ (1.4:ℝ) * sigma ^ (0.4:ℝ) * L / (D ^ (1.2:ℝ) * rr ^ (0.866:ℝ))
      ≤ (2:ℝ) ^ (1.4:ℝ) * (0.83 * G ^ (1.4:ℝ) * sigma ^ (0.4:ℝ) * L
          / (D ^ (1.2:ℝ) * rr ^ (0.866:ℝ))) := le_mul_of_one_le_left base h2
    _ = 0.83 * ((2:ℝ) ^ (1.4:ℝ) * G ^ (1.4:ℝ)) * sigma ^ (0.4:ℝ) * L
          / (D ^ (1.2:ℝ) * rr ^ (0.866:ℝ)) := by ring

/-- Witness for the amended C7 at a concrete valid input. -/
theorem Lombardi_mass_monotone_w :
    Lombardi_Pedrocchi 1 (1/2) 2 1 1 1 1 ≤ Lombardi_Pedrocchi (2 * 1) (1/2) 2 1 1 1 1 :=
  Lombardi_mass_monotone 1 (1/2) 2 1 1 1 1 (by norm_num) (by norm_num) (by norm_num)
    (by norm_num) (by norm_num) (by norm_num) (by norm_num) (by norm_num)

end TwoPhase
